import Mathlib

/-!
# Verification of the code-embedding system's graph store and backends

Shallow embedding of the repository's core modules:

* `graphcodebert_embedder.py` — `CodeNode`/`CodeRelation` data model, the
  networkx `DiGraph` call graph, depth-bounded BFS traversals
  (`get_upstream_dependencies` / `get_downstream_dependencies`),
  `get_call_path`, `analyze_impact`, snapshot `export_embeddings` /
  `load_embeddings`, `add_code_relation`, `get_statistics`.
* `vector_database.py` — the `FAISSInterface` exact backend
  (`add_embeddings`, `search`, `get_node`, `update_node`, `delete_node`).
* `main.py` — `JavaCodeEmbeddingSystem.search_similar_code`.

Modelling conventions: Python floats are modelled as `Rat` (no claim here
depends on floating-point rounding); numpy vectors are `List Rat`;
Python dicts are association lists with insert-or-replace semantics and
insertion order preserved; a Python function that can raise is modelled
with `Except String` (the string names the Python exception); external
collaborators (the GraphCodeBERT encoder `encode_code`, `numpy` square
root inside `np.linalg.norm`, the pluggable vector-database backend) are
opaque function parameters, per the spec's "external collaborators".
-/

/-- `CodeNode` dataclass of `graphcodebert_embedder.py` (lines 12-22).
The numpy embedding vector is modelled as an optional `List Rat`. -/
structure CodeNode where
  id : String
  file_path : String
  node_type : String
  name : String
  code : String
  start_line : Int
  end_line : Int
  embedding : Option (List Rat) := none
  deriving Repr, DecidableEq

/-- `CodeRelation` dataclass of `graphcodebert_embedder.py` (lines 24-30). -/
structure CodeRelation where
  source_id : String
  target_id : String
  relation_type : String
  confidence : Rat
  deriving Repr, DecidableEq

/-- A networkx `DiGraph` as used by the embedder: a node set plus at most
one directed edge per `(source, target)` pair carrying the last-written
`relation_type`/`confidence` attributes (networkx `add_edge` on an
existing pair overwrites the attributes; it does not create a parallel
edge).  `nodeList` keeps insertion order; each edge record is
`(source, target, relation_type, confidence)`. -/
structure NxDiGraph where
  nodeList : List String := []
  edgeList : List (String × String × String × Rat) := []
  deriving Repr, DecidableEq

namespace NxDiGraph

/-- networkx `add_node`: inserts the id if absent (node attributes are not
tracked by the model; no operation of the repository reads them back). -/
def add_node (g : NxDiGraph) (n : String) : NxDiGraph :=
  if n ∈ g.nodeList then g else { g with nodeList := g.nodeList ++ [n] }

/-- Replace the attributes of the `(s, t)` edge record, keeping position. -/
def replaceEdge (l : List (String × String × String × Rat)) (s t ty : String)
    (conf : Rat) : List (String × String × String × Rat) :=
  l.map fun e => if e.1 = s ∧ e.2.1 = t then (s, t, ty, conf) else e

/-- Insert an `(s, t)` edge, overwriting the attributes if the pair is
already present (networkx stores one edge per ordered pair). -/
def addEdgeRaw (g : NxDiGraph) (s t ty : String) (conf : Rat) : NxDiGraph :=
  if g.edgeList.any (fun e => e.1 = s ∧ e.2.1 = t) then
    { g with edgeList := replaceEdge g.edgeList s t ty conf }
  else
    { g with edgeList := g.edgeList ++ [(s, t, ty, conf)] }

/-- networkx `add_edge(s, t, relation_type=ty, confidence=conf)`: adds both
endpoints as nodes, then inserts/overwrites the edge record. -/
def add_edge (g : NxDiGraph) (s t ty : String) (conf : Rat) : NxDiGraph :=
  addEdgeRaw ((g.add_node s).add_node t) s t ty conf

/-- networkx `successors(n)`: targets of the edges leaving `n`. -/
def succ (g : NxDiGraph) (n : String) : List String :=
  (g.edgeList.filter (fun e => e.1 = n)).map (fun e => e.2.1)

/-- networkx `predecessors(n)`: sources of the edges entering `n`. -/
def pred (g : NxDiGraph) (n : String) : List String :=
  (g.edgeList.filter (fun e => e.2.1 = n)).map (fun e => e.1)

/-- Attributes stored on the `(s, t)` edge, if present. -/
def edgeAttr (g : NxDiGraph) (s t : String) : Option (String × Rat) :=
  (g.edgeList.find? (fun e => decide (e.1 = s ∧ e.2.1 = t))).map
    (fun e => (e.2.2.1, e.2.2.2))

def number_of_edges (g : NxDiGraph) : Nat := g.edgeList.length

/-- Well-formedness maintained by `add_node`/`add_edge`: node list has no
duplicates, at most one edge record per `(source, target)` pair, and every
edge endpoint is a node (networkx adds endpoints on `add_edge`). -/
structure Wf (g : NxDiGraph) : Prop where
  nodes_nodup : g.nodeList.Nodup
  edges_keys_nodup : (g.edgeList.map (fun e => (e.1, e.2.1))).Nodup
  src_mem : ∀ e ∈ g.edgeList, e.1 ∈ g.nodeList
  tgt_mem : ∀ e ∈ g.edgeList, e.2.1 ∈ g.nodeList

instance (g : NxDiGraph) : Decidable g.Wf := by
  have h : g.Wf ↔ (g.nodeList.Nodup ∧ (g.edgeList.map (fun e => (e.1, e.2.1))).Nodup ∧
      (∀ e ∈ g.edgeList, e.1 ∈ g.nodeList) ∧ ∀ e ∈ g.edgeList, e.2.1 ∈ g.nodeList) := by
    constructor
    · intro ⟨a, b, c, d⟩; exact ⟨a, b, c, d⟩
    · intro ⟨a, b, c, d⟩; exact ⟨a, b, c, d⟩
  exact decidable_of_iff _ h.symm

end NxDiGraph

/-! ## Depth-bounded BFS (`get_upstream_dependencies` /
`get_downstream_dependencies`, `graphcodebert_embedder.py` lines 215-285)

The Python loop keeps a FIFO `queue` of `(node, depth)` pairs, a `visited`
set, and an accumulator set; an iteration pops the head, skips it when
already visited or at depth `>= max_depth`, otherwise marks it visited,
unions all its neighbours into the accumulator and enqueues the
not-yet-visited neighbours at `depth + 1`.  The recursion below is the
same loop with an explicit fuel argument; `graphFuel` is large enough
that the fuel never runs out (proved later). -/

def bfsAux (adj : String → List String) (maxDepth : Nat) :
    Nat → List (String × Nat) → Finset String → Finset String → Finset String
  | 0, _, _, acc => acc
  | _ + 1, [], _, acc => acc
  | fuel + 1, (c, d) :: rest, visited, acc =>
    if c ∈ visited ∨ maxDepth ≤ d then
      bfsAux adj maxDepth fuel rest visited acc
    else
      bfsAux adj maxDepth fuel
        (rest ++ (adj c).filterMap
          (fun m => if m ∈ insert c visited then none else some (m, d + 1)))
        (insert c visited)
        (acc ∪ (adj c).toFinset)

/-- Fuel bound: the loop pops at most `1 + Σ out-degrees` entries, which is
at most `nodes * edges + 1`; one more unit reaches the empty-queue case. -/
def graphFuel (g : NxDiGraph) : Nat :=
  (g.nodeList.length + 1) * (g.edgeList.length + 1) + 1

/-- `get_downstream_dependencies` (lines 251-285): BFS over successor
edges; unknown start id returns empty.  The Python function returns
`list(downstream)` of a set (unspecified order); the result is modelled
as the `Finset` itself. -/
def get_downstream_dependencies (g : NxDiGraph) (node_id : String)
    (max_depth : Nat) : Finset String :=
  if node_id ∈ g.nodeList then
    bfsAux g.succ max_depth (graphFuel g) [(node_id, 0)] ∅ ∅
  else ∅

/-- `get_upstream_dependencies` (lines 215-249): identical loop over
predecessor edges. -/
def get_upstream_dependencies (g : NxDiGraph) (node_id : String)
    (max_depth : Nat) : Finset String :=
  if node_id ∈ g.nodeList then
    bfsAux g.pred max_depth (graphFuel g) [(node_id, 0)] ∅ ∅
  else ∅

/-! ## Distance layers

`ball adj s k` is the set of nodes reachable from `s` in at most `k` hops
along `adj`; the BFS theorems characterise the traversal results through
these layers. -/

/-- One-step successor set of a finite node set. -/
def succsOf (adj : String → List String) (S : Finset String) : Finset String :=
  S.biUnion (fun u => (adj u).toFinset)

/-- Nodes reachable from `s` within `k` hops. -/
def ball (adj : String → List String) (s : String) : Nat → Finset String
  | 0 => {s}
  | k + 1 => ball adj s k ∪ succsOf adj (ball adj s k)

/-- The true shortest hop distance from `s` to `n` along `adj` is `d`. -/
def distIs (adj : String → List String) (s n : String) (d : Nat) : Prop :=
  n ∈ ball adj s d ∧ ∀ k < d, n ∉ ball adj s k

instance (adj : String → List String) (s n : String) (d : Nat) :
    Decidable (distIs adj s n d) := by
  unfold distIs; infer_instance

/-- The 4-node chain A→B→C→D used by the spec's depth-bound examples. -/
def chainGraph : NxDiGraph :=
  ((NxDiGraph.add_edge {} "A" "B" "call" 1).add_edge "B" "C" "call" 1).add_edge
    "C" "D" "call" 1

/-- The 3-node cycle A→B→C→A used by the spec's cycle-safety example. -/
def cycleGraph : NxDiGraph :=
  ((NxDiGraph.add_edge {} "A" "B" "call" 1).add_edge "B" "C" "call" 1).add_edge
    "C" "A" "call" 1

example : get_downstream_dependencies chainGraph "A" 2 = {"B", "C"} := by decide
example : get_downstream_dependencies chainGraph "A" 1 = {"B"} := by decide
example : get_downstream_dependencies chainGraph "A" 0 = ∅ := by decide
example : "A" ∈ get_downstream_dependencies cycleGraph "A" 3 := by decide
example : get_upstream_dependencies chainGraph "D" 2 = {"B", "C"} := by decide
example : chainGraph.Wf := by decide

/-! ## BFS correctness machinery -/

theorem mem_succsOf {adj : String → List String} {S : Finset String}
    {n : String} : n ∈ succsOf adj S ↔ ∃ u ∈ S, n ∈ adj u := by
  simp [succsOf]

theorem succsOf_mono {adj : String → List String} {S T : Finset String}
    (h : S ⊆ T) : succsOf adj S ⊆ succsOf adj T :=
  Finset.biUnion_subset_biUnion_of_subset_left _ h

theorem ball_subset_succ (adj : String → List String) (s : String) (k : Nat) :
    ball adj s k ⊆ ball adj s (k + 1) := by
  intro n hn
  exact Finset.mem_union_left _ hn

theorem ball_mono (adj : String → List String) (s : String) {k l : Nat}
    (h : k ≤ l) : ball adj s k ⊆ ball adj s l := by
  induction l with
  | zero => cases Nat.le_zero.mp h; exact fun _ hx => hx
  | succ l ih =>
    rcases Nat.lt_or_ge k (l + 1) with hlt | hge
    · exact fun n hn => ball_subset_succ adj s l (ih (Nat.lt_succ_iff.mp hlt) hn)
    · cases Nat.le_antisymm h hge; exact fun _ hx => hx

theorem ball_stab (adj : String → List String) (s : String) (t : Nat)
    (h : ball adj s (t + 1) ⊆ ball adj s t) :
    ∀ j, t ≤ j → ball adj s j = ball adj s t := by
  have key : ∀ m, ball adj s (t + m) = ball adj s t := by
    intro m
    induction m with
    | zero => rfl
    | succ m ih =>
      have : ball adj s (t + m + 1) = ball adj s (t + 1) := by
        show ball adj s (t + m) ∪ succsOf adj (ball adj s (t + m)) = _
        rw [ih]; rfl
      rw [show t + (m + 1) = t + m + 1 from rfl, this]
      exact Finset.Subset.antisymm h (ball_subset_succ adj s t)
  intro j hj
  have : j = t + (j - t) := by omega
  rw [this, key]

theorem bfsAux_skip_all (adj : String → List String) (maxDepth : Nat) :
    ∀ (q : List (String × Nat)) (fuel : Nat) (V acc : Finset String),
      (∀ p ∈ q, maxDepth ≤ p.2) → q.length < fuel →
      bfsAux adj maxDepth fuel q V acc = acc := by
  intro q
  induction q with
  | nil =>
    intro fuel V acc _ hlen
    match fuel, hlen with
    | f + 1, _ => rfl
  | cons p rest ih =>
    intro fuel V acc hq hlen
    match fuel, hlen with
    | f + 1, hlen =>
      obtain ⟨c, d⟩ := p
      have hd : maxDepth ≤ d := hq (c, d) (List.mem_cons_self _ _)
      show (if c ∈ V ∨ maxDepth ≤ d then bfsAux adj maxDepth f rest V acc
          else _) = acc
      rw [if_pos (Or.inr hd)]
      exact ih f V acc (fun p hp => hq p (List.mem_cons_of_mem _ hp))
        (by simpa using Nat.lt_of_succ_lt_succ hlen)

theorem filterMap_enqueue (l : List String) (W : Finset String) (d : Nat) :
    l.filterMap (fun m => if m ∈ W then none else some (m, d)) =
      (l.filter (fun m => decide (m ∉ W))).map (fun m => (m, d)) := by
  induction l with
  | nil => rfl
  | cons a l ih =>
    by_cases ha : a ∈ W <;>
      simp [List.filterMap_cons, List.filter_cons, ha, ih]

/-- Loop potential: queue length plus the out-degrees of the unvisited
nodes; it strictly decreases at every iteration of `bfsAux`. -/
def bfsPot (adj : String → List String) (nodes : Finset String)
    (A B : List String) (V : Finset String) : Nat :=
  A.length + B.length + Finset.sum (nodes \ V) (fun v => (adj v).length)

/-- Mid-run invariant of the BFS loop.  The queue is level-structured:
`A` holds the pending entries at depth `t`, `B` those at depth `t + 1`;
`V` is the visited set and `acc` the accumulated result. -/
structure BfsInv (adj : String → List String) (nodes : Finset String)
    (s : String) (maxDepth t : Nat) (A B : List String)
    (V acc : Finset String) : Prop where
  t_lt : t < maxDepth
  a_nodes : ∀ x ∈ A, x ∈ nodes
  b_nodes : ∀ y ∈ B, y ∈ nodes
  v_sub : V ⊆ ball adj s t
  a_sub : ∀ x ∈ A, x ∈ ball adj s t
  a_comp : ∀ n ∈ ball adj s t, n ∈ V ∨ n ∈ A
  b_sub : ∀ y ∈ B, y ∈ ball adj s (t + 1)
  b_comp : ∀ n ∈ ball adj s (t + 1), n ∉ ball adj s t →
    n ∈ V ∨ n ∈ B ∨ ∃ x, x ∈ A ∧ x ∉ V ∧ n ∈ adj x
  acc_eq : acc = succsOf adj V

theorem bfsAux_nil (adj : String → List String) (maxDepth fuel : Nat)
    (V acc : Finset String) :
    bfsAux adj maxDepth (fuel + 1) [] V acc = acc := rfl

theorem bfsAux_cons (adj : String → List String) (maxDepth fuel : Nat)
    (c : String) (d : Nat) (rest : List (String × Nat)) (V acc : Finset String) :
    bfsAux adj maxDepth (fuel + 1) ((c, d) :: rest) V acc =
      if c ∈ V ∨ maxDepth ≤ d then bfsAux adj maxDepth fuel rest V acc
      else bfsAux adj maxDepth fuel
        (rest ++ (adj c).filterMap
          (fun m => if m ∈ insert c V then none else some (m, d + 1)))
        (insert c V) (acc ∪ (adj c).toFinset) := rfl

/-- Main BFS induction: from any level-structured intermediate state
satisfying `BfsInv`, the loop computes the one-step successor set of the
`maxDepth - 1` reachability layer. -/
theorem bfs_gen (adj : String → List String) (nodes : Finset String)
    (hadj : ∀ x y, y ∈ adj x → y ∈ nodes) (s : String) (maxDepth : Nat) :
    ∀ (fuel k t : Nat) (A B : List String) (V acc : Finset String),
      maxDepth - t ≤ k →
      BfsInv adj nodes s maxDepth t A B V acc →
      bfsPot adj nodes A B V < fuel →
      bfsAux adj maxDepth fuel
          (A.map (fun x => (x, t)) ++ B.map (fun y => (y, t + 1))) V acc
        = succsOf adj (ball adj s (maxDepth - 1)) := by
  intro fuel
  induction fuel with
  | zero =>
    intro k t A B V acc _ _ hpot
    exact absurd hpot (Nat.not_lt_zero _)
  | succ f ihf =>
    intro k
    induction k with
    | zero =>
      intro t A B V acc hk hinv _
      have := hinv.t_lt
      omega
    | succ k ihk =>
      intro t A B V acc hk hinv hpot
      match A with
      | [] =>
        have hVt : V = ball adj s t :=
          Finset.Subset.antisymm hinv.v_sub (fun n hn =>
            (hinv.a_comp n hn).elim id (fun h => absurd h (List.not_mem_nil n)))
        match B with
        | [] =>
          have hstab : ball adj s (t + 1) ⊆ ball adj s t := by
            intro n hn
            by_cases hnt : n ∈ ball adj s t
            · exact hnt
            · rcases hinv.b_comp n hn hnt with h | h | ⟨w, hw, _, _⟩
              · exact hVt ▸ h
              · exact absurd h (List.not_mem_nil n)
              · exact absurd hw (List.not_mem_nil w)
          have hfin : ball adj s (maxDepth - 1) = ball adj s t :=
            ball_stab adj s t hstab (maxDepth - 1)
              (by have := hinv.t_lt; omega)
          show bfsAux adj maxDepth (f + 1) [] V acc = _
          rw [bfsAux_nil, hinv.acc_eq, hVt, hfin]
        | y :: ys =>
          by_cases hstep : t + 1 < maxDepth
          · -- level shift: the depth-(t+1) entries become the current level
            have hq : (([] : List String).map (fun z => (z, t)) ++
                  (y :: ys).map (fun z => (z, t + 1)))
                = ((y :: ys).map (fun z => (z, t + 1)) ++
                  ([] : List String).map (fun z => (z, t + 1 + 1))) := by simp
            rw [hq]
            apply ihk (t + 1) (y :: ys) [] V acc (by have := hinv.t_lt; omega)
              ?_ (by simp only [bfsPot] at hpot ⊢; simpa using hpot)
            have hacomp : ∀ n ∈ ball adj s (t + 1), n ∈ V ∨ n ∈ y :: ys := by
              intro n hn
              by_cases hnt : n ∈ ball adj s t
              · exact Or.inl (hVt ▸ hnt)
              · rcases hinv.b_comp n hn hnt with h | h | ⟨w, hw, _, _⟩
                · exact Or.inl h
                · exact Or.inr h
                · exact absurd hw (List.not_mem_nil w)
            refine ⟨hstep, hinv.b_nodes, fun z hz => absurd hz (List.not_mem_nil z),
              hinv.v_sub.trans (ball_subset_succ adj s t), hinv.b_sub, hacomp,
              fun z hz => absurd hz (List.not_mem_nil z), ?_, hinv.acc_eq⟩
            intro n hn hnt1
            have hn2 : n ∈ succsOf adj (ball adj s (t + 1)) := by
              rcases Finset.mem_union.mp hn with h | h
              · exact absurd h hnt1
              · exact h
            obtain ⟨u, hu, hadj_u⟩ := mem_succsOf.mp hn2
            have huV : u ∉ V := by
              intro huV
              apply hnt1
              have : u ∈ ball adj s t := hVt ▸ huV
              exact Finset.mem_union_right _ (mem_succsOf.mpr ⟨u, this, hadj_u⟩)
            rcases hacomp u hu with h | h
            · exact absurd h huV
            · exact Or.inr (Or.inr ⟨u, h, huV, hadj_u⟩)
          · -- closing: every queued entry is at depth ≥ maxDepth
            have ht : t = maxDepth - 1 := by have := hinv.t_lt; omega
            have hq : (([] : List String).map (fun z => (z, t)) ++
                  (y :: ys).map (fun z => (z, t + 1)))
                = (y :: ys).map (fun z => (z, t + 1)) := by simp
            rw [hq, bfsAux_skip_all adj maxDepth _ (f + 1) V acc ?_ ?_]
            · rw [hinv.acc_eq, hVt, ht]
            · intro p hp
              obtain ⟨z, _, rfl⟩ := List.mem_map.mp hp
              show maxDepth ≤ t + 1
              omega
            · have : ((y :: ys).map (fun z => (z, t + 1))).length = (y :: ys).length :=
                List.length_map _ _
              simp only [bfsPot] at hpot
              omega
      | x :: tail =>
        have hq : ((x :: tail).map (fun z => (z, t)) ++ B.map (fun z => (z, t + 1)))
            = (x, t) :: (tail.map (fun z => (z, t)) ++ B.map (fun z => (z, t + 1))) := by
          simp
        rw [hq, bfsAux_cons]
        have hx_nodes : x ∈ nodes := hinv.a_nodes x (List.mem_cons_self _ _)
        have hx_ball : x ∈ ball adj s t := hinv.a_sub x (List.mem_cons_self _ _)
        by_cases hxV : x ∈ V
        · -- skip: head already visited
          rw [if_pos (Or.inl hxV)]
          apply ihf maxDepth t tail B V acc (Nat.sub_le _ _) ?_ ?_
          · refine ⟨hinv.t_lt, fun z hz => hinv.a_nodes z (List.mem_cons_of_mem _ hz),
              hinv.b_nodes, hinv.v_sub,
              fun z hz => hinv.a_sub z (List.mem_cons_of_mem _ hz), ?_, hinv.b_sub,
              ?_, hinv.acc_eq⟩
            · intro n hn
              rcases hinv.a_comp n hn with h | h
              · exact Or.inl h
              · rcases List.mem_cons.mp h with rfl | h
                · exact Or.inl hxV
                · exact Or.inr h
            · intro n hn hnt
              rcases hinv.b_comp n hn hnt with h | h | ⟨w, hw, hwV, hwadj⟩
              · exact Or.inl h
              · exact Or.inr (Or.inl h)
              · rcases List.mem_cons.mp hw with rfl | hw
                · exact absurd hxV hwV
                · exact Or.inr (Or.inr ⟨w, hw, hwV, hwadj⟩)
          · simp only [bfsPot, List.length_cons] at hpot ⊢
            omega
        · -- visit: mark x, accumulate its neighbours, enqueue the new ones
          rw [if_neg (not_or.mpr ⟨hxV, Nat.not_le.mpr hinv.t_lt⟩)]
          rw [filterMap_enqueue (adj x) (insert x V) (t + 1)]
          rw [List.append_assoc, ← List.map_append]
          apply ihf maxDepth t tail
            (B ++ (adj x).filter (fun m => decide (m ∉ insert x V)))
            (insert x V) (acc ∪ (adj x).toFinset) (Nat.sub_le _ _) ?_ ?_
          · refine ⟨hinv.t_lt, fun z hz => hinv.a_nodes z (List.mem_cons_of_mem _ hz),
              ?_, Finset.insert_subset_iff.mpr ⟨hx_ball, hinv.v_sub⟩,
              fun z hz => hinv.a_sub z (List.mem_cons_of_mem _ hz), ?_, ?_, ?_, ?_⟩
            · -- b_nodes
              intro z hz
              rcases List.mem_append.mp hz with h | h
              · exact hinv.b_nodes z h
              · exact hadj x z (List.mem_filter.mp h).1
            · -- a_comp
              intro n hn
              rcases hinv.a_comp n hn with h | h
              · exact Or.inl (Finset.mem_insert_of_mem h)
              · rcases List.mem_cons.mp h with rfl | h
                · exact Or.inl (Finset.mem_insert_self _ _)
                · exact Or.inr h
            · -- b_sub
              intro z hz
              rcases List.mem_append.mp hz with h | h
              · exact hinv.b_sub z h
              · exact Finset.mem_union_right _
                  (mem_succsOf.mpr ⟨x, hx_ball, (List.mem_filter.mp h).1⟩)
            · -- b_comp
              intro n hn hnt
              have hnV : n ∉ V := fun h => hnt (hinv.v_sub h)
              have hnx : n ≠ x := fun h => hnt (h ▸ hx_ball)
              rcases hinv.b_comp n hn hnt with h | h | ⟨w, hw, hwV, hwadj⟩
              · exact Or.inl (Finset.mem_insert_of_mem h)
              · exact Or.inr (Or.inl (List.mem_append_left _ h))
              · by_cases hwx : w = x
                · subst hwx
                  refine Or.inr (Or.inl (List.mem_append_right _ ?_))
                  refine List.mem_filter.mpr ⟨hwadj, ?_⟩
                  simp only [decide_eq_true_eq, Finset.mem_insert]
                  push_neg
                  exact ⟨hnx, hnV⟩
                · rcases List.mem_cons.mp hw with rfl | hw
                  · exact absurd rfl hwx
                  · refine Or.inr (Or.inr ⟨w, hw, ?_, hwadj⟩)
                    simp only [Finset.mem_insert]
                    push_neg
                    exact ⟨hwx, hwV⟩
            · -- acc_eq
              rw [hinv.acc_eq]
              show succsOf adj V ∪ (adj x).toFinset = succsOf adj (insert x V)
              unfold succsOf
              rw [Finset.biUnion_insert, Finset.union_comm]
          · -- potential strictly decreases
            have hxd : x ∈ nodes \ V := Finset.mem_sdiff.mpr ⟨hx_nodes, hxV⟩
            have hsd : nodes \ insert x V = (nodes \ V).erase x := by
              ext z
              simp only [Finset.mem_sdiff, Finset.mem_erase, Finset.mem_insert]
              tauto
            have hsum : Finset.sum ((nodes \ V).erase x) (fun v => (adj v).length)
                + (adj x).length
                = Finset.sum (nodes \ V) (fun v => (adj v).length) :=
              Finset.sum_erase_add _ _ hxd
            have hlen : ((adj x).filter (fun m => decide (m ∉ insert x V))).length
                ≤ (adj x).length := List.length_filter_le _ _
            simp only [bfsPot, List.length_cons, List.length_append, hsd] at hpot ⊢
            omega

/-- From the initial state, a sufficiently fuelled BFS run computes the
one-step successor set of the `maxDepth - 1` reachability layer. -/
theorem bfsAux_characterization (adj : String → List String)
    (nodes : Finset String) (hadj : ∀ x y, y ∈ adj x → y ∈ nodes)
    (s : String) (hs : s ∈ nodes) (maxDepth : Nat) (hpos : 0 < maxDepth)
    (fuel : Nat)
    (hfuel : 1 + Finset.sum nodes (fun v => (adj v).length) < fuel) :
    bfsAux adj maxDepth fuel [(s, 0)] ∅ ∅
      = succsOf adj (ball adj s (maxDepth - 1)) := by
  have h0 : [(s, 0)] = [s].map (fun x => (x, 0)) ++
      ([] : List String).map (fun y => (y, 0 + 1)) := rfl
  rw [h0]
  apply bfs_gen adj nodes hadj s maxDepth fuel maxDepth 0 [s] [] ∅ ∅
    (Nat.sub_le _ _) ?_ ?_
  · refine ⟨hpos, ?_, fun z hz => absurd hz (List.not_mem_nil z), ?_, ?_, ?_,
      fun z hz => absurd hz (List.not_mem_nil z), ?_, ?_⟩
    · intro z hz
      rcases List.mem_cons.mp hz with rfl | h
      · exact hs
      · exact absurd h (List.not_mem_nil z)
    · intro n hn
      exact absurd hn (Finset.not_mem_empty n)
    · intro z hz
      rcases List.mem_cons.mp hz with rfl | h
      · exact Finset.mem_singleton_self z
      · exact absurd h (List.not_mem_nil z)
    · intro n hn
      exact Or.inr (by simpa [ball] using hn)
    · intro n hn hnt
      have hn2 : n ∈ succsOf adj (ball adj s 0) := by
        rcases Finset.mem_union.mp hn with h | h
        · exact absurd h hnt
        · exact h
      obtain ⟨u, hu, hadj_u⟩ := mem_succsOf.mp hn2
      have : u = s := by simpa [ball] using hu
      subst this
      exact Or.inr (Or.inr ⟨u, List.mem_cons_self _ _, Finset.not_mem_empty u,
        hadj_u⟩)
    · simp [succsOf]
  · have : Finset.sum (nodes \ ∅) (fun v => (adj v).length)
        = Finset.sum nodes (fun v => (adj v).length) := by
      rw [Finset.sdiff_empty]
    simp only [bfsPot, List.length_cons, List.length_nil]
    omega

theorem graphFuel_big_succ (g : NxDiGraph) :
    1 + Finset.sum g.nodeList.toFinset (fun v => (g.succ v).length)
      < graphFuel g := by
  have h1 : ∀ v : String, (g.succ v).length ≤ g.edgeList.length := by
    intro v
    unfold NxDiGraph.succ
    rw [List.length_map]
    exact List.length_filter_le _ _
  have h2 : Finset.sum g.nodeList.toFinset (fun v => (g.succ v).length)
      ≤ g.nodeList.toFinset.card * g.edgeList.length := by
    calc Finset.sum g.nodeList.toFinset (fun v => (g.succ v).length)
        ≤ Finset.sum g.nodeList.toFinset (fun _ => g.edgeList.length) :=
          Finset.sum_le_sum (fun v _ => h1 v)
      _ = g.nodeList.toFinset.card * g.edgeList.length := by
          rw [Finset.sum_const, smul_eq_mul]
  have h3 : g.nodeList.toFinset.card ≤ g.nodeList.length :=
    g.nodeList.toFinset_card_le
  have h4 : g.nodeList.toFinset.card * g.edgeList.length
      ≤ g.nodeList.length * g.edgeList.length :=
    Nat.mul_le_mul_right _ h3
  have h5 : (g.nodeList.length + 1) * (g.edgeList.length + 1)
      = g.nodeList.length * g.edgeList.length + g.nodeList.length
        + g.edgeList.length + 1 := by ring
  unfold graphFuel
  omega

theorem graphFuel_big_pred (g : NxDiGraph) :
    1 + Finset.sum g.nodeList.toFinset (fun v => (g.pred v).length)
      < graphFuel g := by
  have h1 : ∀ v : String, (g.pred v).length ≤ g.edgeList.length := by
    intro v
    unfold NxDiGraph.pred
    rw [List.length_map]
    exact List.length_filter_le _ _
  have h2 : Finset.sum g.nodeList.toFinset (fun v => (g.pred v).length)
      ≤ g.nodeList.toFinset.card * g.edgeList.length := by
    calc Finset.sum g.nodeList.toFinset (fun v => (g.pred v).length)
        ≤ Finset.sum g.nodeList.toFinset (fun _ => g.edgeList.length) :=
          Finset.sum_le_sum (fun v _ => h1 v)
      _ = g.nodeList.toFinset.card * g.edgeList.length := by
          rw [Finset.sum_const, smul_eq_mul]
  have h3 : g.nodeList.toFinset.card ≤ g.nodeList.length :=
    g.nodeList.toFinset_card_le
  have h4 : g.nodeList.toFinset.card * g.edgeList.length
      ≤ g.nodeList.length * g.edgeList.length :=
    Nat.mul_le_mul_right _ h3
  have h5 : (g.nodeList.length + 1) * (g.edgeList.length + 1)
      = g.nodeList.length * g.edgeList.length + g.nodeList.length
        + g.edgeList.length + 1 := by ring
  unfold graphFuel
  omega

/-- `get_downstream_dependencies` computes exactly the successors of the
`maxDepth - 1` layer (for a present start node and positive depth). -/
theorem downstream_eq_layers (g : NxDiGraph) (hg : g.Wf) (s : String)
    (hs : s ∈ g.nodeList) (maxDepth : Nat) (hpos : 0 < maxDepth) :
    get_downstream_dependencies g s maxDepth
      = succsOf g.succ (ball g.succ s (maxDepth - 1)) := by
  unfold get_downstream_dependencies
  rw [if_pos hs]
  apply bfsAux_characterization g.succ g.nodeList.toFinset ?_ s
    (List.mem_toFinset.mpr hs) maxDepth hpos (graphFuel g)
    (graphFuel_big_succ g)
  intro x y hy
  unfold NxDiGraph.succ at hy
  obtain ⟨e, he, rfl⟩ := List.mem_map.mp hy
  exact List.mem_toFinset.mpr (hg.tgt_mem e (List.mem_filter.mp he).1)

/-- `get_upstream_dependencies` computes exactly the predecessors of the
`maxDepth - 1` layer of the reversed graph. -/
theorem upstream_eq_layers (g : NxDiGraph) (hg : g.Wf) (s : String)
    (hs : s ∈ g.nodeList) (maxDepth : Nat) (hpos : 0 < maxDepth) :
    get_upstream_dependencies g s maxDepth
      = succsOf g.pred (ball g.pred s (maxDepth - 1)) := by
  unfold get_upstream_dependencies
  rw [if_pos hs]
  apply bfsAux_characterization g.pred g.nodeList.toFinset ?_ s
    (List.mem_toFinset.mpr hs) maxDepth hpos (graphFuel g)
    (graphFuel_big_pred g)
  intro x y hy
  unfold NxDiGraph.pred at hy
  obtain ⟨e, he, rfl⟩ := List.mem_map.mp hy
  exact List.mem_toFinset.mpr (hg.src_mem e (List.mem_filter.mp he).1)

theorem one_lt_graphFuel (g : NxDiGraph) : 1 < graphFuel g := by
  unfold graphFuel
  have : 1 ≤ (g.nodeList.length + 1) * (g.edgeList.length + 1) :=
    Nat.one_le_iff_ne_zero.mpr (Nat.mul_ne_zero (Nat.succ_ne_zero _)
      (Nat.succ_ne_zero _))
  omega

/-- With `max_depth = 0` the very first pop is skipped and the result is
empty, downstream direction. -/
theorem downstream_zero (g : NxDiGraph) (s : String) :
    get_downstream_dependencies g s 0 = ∅ := by
  unfold get_downstream_dependencies
  by_cases hs : s ∈ g.nodeList
  · rw [if_pos hs]
    exact bfsAux_skip_all g.succ 0 [(s, 0)] (graphFuel g) ∅ ∅
      (fun p _ => Nat.zero_le _) (by simpa using one_lt_graphFuel g)
  · rw [if_neg hs]

/-- With `max_depth = 0` the result is empty, upstream direction. -/
theorem upstream_zero (g : NxDiGraph) (s : String) :
    get_upstream_dependencies g s 0 = ∅ := by
  unfold get_upstream_dependencies
  by_cases hs : s ∈ g.nodeList
  · rw [if_pos hs]
    exact bfsAux_skip_all g.pred 0 [(s, 0)] (graphFuel g) ∅ ∅
      (fun p _ => Nat.zero_le _) (by simpa using one_lt_graphFuel g)
  · rw [if_neg hs]

theorem downstream_not_mem (g : NxDiGraph) (s : String) (maxDepth : Nat)
    (h : s ∉ g.nodeList) : get_downstream_dependencies g s maxDepth = ∅ := by
  unfold get_downstream_dependencies
  rw [if_neg h]

theorem upstream_not_mem (g : NxDiGraph) (s : String) (maxDepth : Nat)
    (h : s ∉ g.nodeList) : get_upstream_dependencies g s maxDepth = ∅ := by
  unfold get_upstream_dependencies
  rw [if_neg h]

/-- Membership in the successor set of a layer, phrased through the true
shortest hop distance. -/
theorem mem_succs_ball_iff (adj : String → List String) (s n : String)
    (hns : n ≠ s) (m d : Nat) (hd : distIs adj s n d) :
    n ∈ succsOf adj (ball adj s m) ↔ d ≤ m + 1 := by
  constructor
  · intro hmem
    have hball : n ∈ ball adj s (m + 1) := Finset.mem_union_right _ hmem
    by_contra hgt
    exact hd.2 (m + 1) (by omega) hball
  · intro hle
    match d, hd with
    | 0, hd =>
      exact absurd (by simpa [ball] using hd.1) hns
    | d' + 1, hd =>
      have hn1 : n ∉ ball adj s d' := hd.2 d' (Nat.lt_succ_self _)
      have hn2 : n ∈ succsOf adj (ball adj s d') := by
        rcases Finset.mem_union.mp hd.1 with h | h
        · exact absurd h hn1
        · exact h
      exact succsOf_mono (ball_mono adj s (by omega)) hn2

/-- C4 counterexample: in the 4-node chain A→B→C→D, node C has true
shortest distance 2 from A, yet it is a member of
`get_downstream_dependencies("A", 2)` although `2 < 2` is false — the
claimed "iff d < maxDepth" membership condition fails. -/
theorem claim_C4_counterexample :
    distIs chainGraph.succ "A" "C" 2 ∧
    "C" ∈ get_downstream_dependencies chainGraph "A" 2 ∧ ¬(2 < 2) :=
  ⟨by decide, by decide, by decide⟩

/-- C4 (amended): for every well-formed graph, start id present in it, and
every other node at true shortest directed hop distance `d` (along
successors for downstream, along predecessors for upstream), the node
appears in the traversal result iff `d ≤ maxDepth` (not `d < maxDepth`). -/
theorem claim_C4_amended (g : NxDiGraph) (hg : g.Wf) (s : String)
    (hs : s ∈ g.nodeList) (maxDepth : Nat) (n : String) (hns : n ≠ s)
    (d : Nat) :
    (distIs g.succ s n d →
      (n ∈ get_downstream_dependencies g s maxDepth ↔ d ≤ maxDepth)) ∧
    (distIs g.pred s n d →
      (n ∈ get_upstream_dependencies g s maxDepth ↔ d ≤ maxDepth)) := by
  constructor
  · intro hd
    match maxDepth with
    | 0 =>
      rw [downstream_zero g s]
      simp only [Finset.not_mem_empty, false_iff]
      intro hle
      have : d = 0 := Nat.le_zero.mp hle
      subst this
      exact hns (by simpa [ball] using hd.1)
    | m + 1 =>
      rw [downstream_eq_layers g hg s hs (m + 1) (Nat.succ_pos m)]
      simpa using mem_succs_ball_iff g.succ s n hns m d hd
  · intro hd
    match maxDepth with
    | 0 =>
      rw [upstream_zero g s]
      simp only [Finset.not_mem_empty, false_iff]
      intro hle
      have : d = 0 := Nat.le_zero.mp hle
      subst this
      exact hns (by simpa [ball] using hd.1)
    | m + 1 =>
      rw [upstream_eq_layers g hg s hs (m + 1) (Nat.succ_pos m)]
      simpa using mem_succs_ball_iff g.pred s n hns m d hd

/-- C4 amended, witness: the chain instance `d = 2`, `maxDepth = 2`. -/
theorem claim_C4_amended_witness :
    chainGraph.Wf ∧ "A" ∈ chainGraph.nodeList ∧ ("C" : String) ≠ "A" ∧
    distIs chainGraph.succ "A" "C" 2 ∧
    ("C" ∈ get_downstream_dependencies chainGraph "A" 2 ↔ 2 ≤ 2) :=
  ⟨by decide, by decide, by decide, by decide,
    (claim_C4_amended chainGraph (by decide) "A" (by decide) 2 "C" (by decide)
      2).1 (by decide)⟩

/-- C5: on the 4-node chain A→B→C→D, `downstream("A", 2) = {B, C}` and
`downstream("A", 1) = {B}`; and for every graph and id present in it,
`maxDepth = 0` yields the empty result in both directions. -/
theorem claim_C5 :
    get_downstream_dependencies chainGraph "A" 2 = {"B", "C"} ∧
    get_downstream_dependencies chainGraph "A" 1 = {"B"} ∧
    ∀ (g : NxDiGraph) (node_id : String), node_id ∈ g.nodeList →
      get_downstream_dependencies g node_id 0 = ∅ ∧
      get_upstream_dependencies g node_id 0 = ∅ :=
  ⟨by decide, by decide,
    fun g node_id _ => ⟨downstream_zero g node_id, upstream_zero g node_id⟩⟩

/-- C5 witness: the `maxDepth = 0` part evaluated on the chain graph. -/
theorem claim_C5_witness :
    "A" ∈ chainGraph.nodeList ∧
    get_downstream_dependencies chainGraph "A" 0 = ∅ :=
  ⟨by decide, (claim_C5.2.2 chainGraph "A" (by decide)).1⟩

/-- C6 counterexample: in the 3-cycle A→B→C→A the start node "A" itself is
a member of `get_downstream_dependencies("A", 3)`, so the start id is not
always excluded. -/
theorem claim_C6_counterexample :
    "A" ∈ get_downstream_dependencies cycleGraph "A" 3 := by decide

/-- C6 (amended): the start id belongs to the traversal result exactly
when it closes a directed cycle of length ≤ maxDepth, i.e. when some node
within `maxDepth - 1` hops of the start has an edge back to the start
(and `maxDepth > 0`); in particular the start is excluded whenever it
lies on no such cycle, but on cyclic graphs it can be included. -/
theorem claim_C6_amended (g : NxDiGraph) (hg : g.Wf) (s : String)
    (hs : s ∈ g.nodeList) (maxDepth : Nat) :
    (s ∈ get_downstream_dependencies g s maxDepth ↔
      0 < maxDepth ∧ ∃ u, u ∈ ball g.succ s (maxDepth - 1) ∧ s ∈ g.succ u) ∧
    (s ∈ get_upstream_dependencies g s maxDepth ↔
      0 < maxDepth ∧ ∃ u, u ∈ ball g.pred s (maxDepth - 1) ∧ s ∈ g.pred u) := by
  constructor
  · match maxDepth with
    | 0 =>
      rw [downstream_zero g s]
      simp
    | m + 1 =>
      rw [downstream_eq_layers g hg s hs (m + 1) (Nat.succ_pos m)]
      simp only [Nat.succ_pos, true_and]
      exact mem_succsOf
  · match maxDepth with
    | 0 =>
      rw [upstream_zero g s]
      simp
    | m + 1 =>
      rw [upstream_eq_layers g hg s hs (m + 1) (Nat.succ_pos m)]
      simp only [Nat.succ_pos, true_and]
      exact mem_succsOf

/-- C6 amended, witness: the 3-cycle instance. -/
theorem claim_C6_amended_witness :
    cycleGraph.Wf ∧ "A" ∈ cycleGraph.nodeList ∧
    ("A" ∈ get_downstream_dependencies cycleGraph "A" 3 ↔
      0 < 3 ∧ ∃ u, u ∈ ball cycleGraph.succ "A" (3 - 1) ∧
        "A" ∈ cycleGraph.succ u) :=
  ⟨by decide, by decide,
    (claim_C6_amended cycleGraph (by decide) "A" (by decide) 3).1⟩

/-! ## Embedder store (`GraphCodeBERTEmbedder` state) -/

/-- The mutable store of `GraphCodeBERTEmbedder` (lines 54-57): the
`code_nodes` dict (insertion-ordered, key-unique), the `code_relations`
list, and the networkx call graph. -/
structure EmbedderState where
  code_nodes : List (String × CodeNode) := []
  code_relations : List CodeRelation := []
  call_graph : NxDiGraph := {}
  deriving Repr, DecidableEq

/-- Python dict assignment `d[k] = v`: replaces in place if the key is
present (keeping its position), appends otherwise. -/
def dictInsert (l : List (String × CodeNode)) (k : String) (v : CodeNode) :
    List (String × CodeNode) :=
  if l.any (fun p => p.1 = k) then
    l.map (fun p => if p.1 = k then (k, v) else p)
  else l ++ [(k, v)]

/-- Python `dict.get(k)`. -/
def dictGet (l : List (String × CodeNode)) (k : String) : Option CodeNode :=
  (l.find? (fun p => p.1 = k)).map (fun p => p.2)

/-- `add_code_relation` (lines 172-189): appends to the relations list and
adds/overwrites the call-graph edge. -/
def add_code_relation (st : EmbedderState) (r : CodeRelation) : EmbedderState :=
  { st with
    code_relations := st.code_relations ++ [r],
    call_graph :=
      st.call_graph.add_edge r.source_id r.target_id r.relation_type
        r.confidence }

/-- Bounded reachability test used for the component counts: with
`bound = |nodes|`, reachability within `bound` hops coincides with plain
reachability on well-formed graphs. -/
def reachableB (adj : String → List String) (bound : Nat) (u v : String) :
    Bool :=
  decide (v ∈ ball adj u bound)

/-- Count equivalence classes of `related` over `l` by greedily collecting
representatives (`related` is reflexive for the relations used below). -/
def countComponents (related : String → String → Bool) (l : List String) :
    Nat :=
  (l.foldl
    (fun reps v => if reps.any (fun u => related u v) then reps
      else reps ++ [v]) []).length

def mutualReach (g : NxDiGraph) (u v : String) : Bool :=
  reachableB g.succ g.nodeList.length u v &&
    reachableB g.succ g.nodeList.length v u

def undirAdj (g : NxDiGraph) (n : String) : List String := g.succ n ++ g.pred n

def weakReach (g : NxDiGraph) (u v : String) : Bool :=
  reachableB (undirAdj g) g.nodeList.length u v

/-- networkx `number_strongly_connected_components`. -/
def number_strongly_connected_components (g : NxDiGraph) : Nat :=
  countComponents (mutualReach g) g.nodeList

/-- networkx `number_weakly_connected_components`. -/
def number_weakly_connected_components (g : NxDiGraph) : Nat :=
  countComponents (weakReach g) g.nodeList

/-- Result dict of `get_statistics` (lines 399-412). -/
structure Statistics where
  total_nodes : Nat
  total_relations : Nat
  total_edges : Nat
  strongly_connected_components : Nat
  weakly_connected_components : Nat
  deriving Repr, DecidableEq

/-- `get_statistics` (lines 399-412). -/
def get_statistics (st : EmbedderState) : Statistics :=
  { total_nodes := st.code_nodes.length,
    total_relations := st.code_relations.length,
    total_edges := st.call_graph.number_of_edges,
    strongly_connected_components :=
      number_strongly_connected_components st.call_graph,
    weakly_connected_components :=
      number_weakly_connected_components st.call_graph }

/-! ## `get_call_path` and `analyze_impact` (lines 287-319) -/

/-- Smallest hop count within which `t` is reachable from `s` (searched up
to the node count, which bounds every shortest path on a well-formed
graph). -/
def firstReachIdx (g : NxDiGraph) (s t : String) : Option Nat :=
  (List.range (g.nodeList.length + 1)).find?
    (fun k => decide (t ∈ ball g.succ s k))

/-- Reconstruct one shortest path of length `k` ending at `t` by walking
the layers backwards. -/
def backPath (g : NxDiGraph) (s : String) : Nat → String → List String
  | 0, t => [t]
  | k + 1, t =>
    match g.nodeList.find?
        (fun u => decide (u ∈ ball g.succ s k) && decide (t ∈ g.succ u)) with
    | some u => backPath g s k u ++ [t]
    | none => [t]

/-- Model of `nx.shortest_path(G, source, target)`: raises `NodeNotFound`
up front when either endpoint is absent from the graph, raises
`NetworkXNoPath` when both are present but the target is unreachable, and
otherwise returns a shortest directed path. -/
def nx_shortest_path (g : NxDiGraph) (s t : String) :
    Except String (List String) :=
  if s ∈ g.nodeList ∧ t ∈ g.nodeList then
    match firstReachIdx g s t with
    | some k => .ok (backPath g s k t)
    | none => .error "NetworkXNoPath"
  else .error "NodeNotFound"

/-- `get_call_path` (lines 287-302): only `NetworkXNoPath` is caught and
turned into `[]`; a `NodeNotFound` from an absent endpoint propagates. -/
def get_call_path (g : NxDiGraph) (source_id target_id : String) :
    Except String (List String) :=
  match nx_shortest_path g source_id target_id with
  | .ok p => .ok p
  | .error e => if e = "NetworkXNoPath" then .ok [] else .error e

/-- Result dict of `analyze_impact`. -/
structure ImpactResult where
  upstream : Finset String
  downstream : Finset String
  direct_callers : List String
  direct_callees : List String
  deriving DecidableEq

/-- `analyze_impact` (lines 304-319): the transitive parts use the BFS
with its default `max_depth = 3`; `predecessors`/`successors` on a node
absent from the graph raise `NetworkXError`. -/
def analyze_impact (g : NxDiGraph) (node_id : String) :
    Except String ImpactResult :=
  if node_id ∈ g.nodeList then
    .ok { upstream := get_upstream_dependencies g node_id 3,
          downstream := get_downstream_dependencies g node_id 3,
          direct_callers := g.pred node_id,
          direct_callees := g.succ node_id }
  else .error "NetworkXError"

/-! ## Snapshot codec (`export_embeddings` / `load_embeddings`,
lines 321-376) -/

/-- One record of the snapshot's `nodes` map.  `metadata = none` models a
record whose `metadata` key is missing (accessing it raises `KeyError`);
`embedding` holds JSON `null` (`none`) or a vector. -/
structure SnapshotNodeRec where
  metadata : Option CodeNode
  embedding : Option (List Rat)
  deriving Repr, DecidableEq

/-- The snapshot document: top-level keys `nodes` and `relations`;
`relations = none` models a document without the `relations` key. -/
structure SnapshotDoc where
  nodes : List (String × SnapshotNodeRec)
  relations : Option (List CodeRelation)
  deriving Repr, DecidableEq

/-- `export_embeddings` (lines 321-339).  The document nests
`asdict(node)` — which still contains the raw numpy `embedding` array —
under `metadata`; `json.dump` cannot serialise an `ndarray`, so it raises
`TypeError` as soon as any node carries a non-None embedding, and only a
store whose nodes all lack embeddings serialises. -/
def export_embeddings (st : EmbedderState) : Except String SnapshotDoc :=
  if st.code_nodes.any (fun p => p.2.embedding.isSome) then
    .error "TypeError: Object of type ndarray is not JSON serializable"
  else
    .ok { nodes := st.code_nodes.map (fun p =>
            (p.1, { metadata := some p.2, embedding := p.2.embedding })),
          relations := some st.code_relations }

/-- Build the `CodeNode` for one snapshot record:
`CodeNode(**metadata)` (raising `KeyError` when the `metadata` key is
missing) followed by `node.embedding = np.array(e) if e else None`
(Python truthiness: `null` and the empty list both yield `None`). -/
def loadNodeRec (rec : SnapshotNodeRec) : Except String CodeNode :=
  match rec.metadata with
  | none => Except.error "KeyError: metadata"
  | some m =>
    Except.ok { m with
      embedding := match rec.embedding with
        | some l => if l.isEmpty then none else some l
        | none => none }

/-- The node loop of `load_embeddings`: mutates the store record by
record; a malformed record stops the loop, keeping the mutations made so
far (the Python `raise` leaves `self` as is). -/
def load_nodes_loop :
    List (String × SnapshotNodeRec) → EmbedderState →
      EmbedderState × Option String
  | [], st => (st, none)
  | (node_id, rec) :: rest, st =>
    match loadNodeRec rec with
    | Except.error e => (st, some e)
    | Except.ok node =>
      load_nodes_loop rest
        { st with code_nodes := dictInsert st.code_nodes node_id node,
                  call_graph := st.call_graph.add_node node_id }

/-- The relation loop of `load_embeddings`. -/
def load_relations_loop : List CodeRelation → EmbedderState → EmbedderState
  | [], st => st
  | r :: rest, st =>
    load_relations_loop rest
      { st with
        code_relations := st.code_relations ++ [r],
        call_graph :=
          st.call_graph.add_edge r.source_id r.target_id r.relation_type
            r.confidence }

/-- `load_embeddings` (lines 341-376): processes the `nodes` map, then the
`relations` list, mutating the store in place; any failure (malformed
record, missing `relations` key) aborts mid-way and the second component
reports it, with the partially-updated store in the first component. -/
def load_embeddings (st : EmbedderState) (doc : SnapshotDoc) :
    EmbedderState × Option String :=
  match load_nodes_loop doc.nodes st with
  | (st1, some e) => (st1, some e)
  | (st1, none) =>
    match doc.relations with
    | none => (st1, some "KeyError: relations")
    | some rels => (load_relations_loop rels st1, none)

/-! ## Claims C3, C1, C8, C7 -/

/-- C3 counterexample: on the chain graph with the absent id "X",
`analyze_impact` raises `NetworkXError` (from `predecessors`) and
`get_call_path` raises `NodeNotFound` (not caught by the
`NetworkXNoPath` handler) — neither returns an empty result. -/
theorem claim_C3_counterexample :
    analyze_impact chainGraph "X" = Except.error "NetworkXError" ∧
    get_call_path chainGraph "X" "A" = Except.error "NodeNotFound" := by
  constructor <;> rfl

/-- C3 (amended): on an id absent from the graph,
`get_upstream_dependencies` and `get_downstream_dependencies` return the
empty result and never fail, but `get_call_path` with either endpoint
absent raises `NodeNotFound` and `analyze_impact` raises `NetworkXError`. -/
theorem claim_C3_amended (g : NxDiGraph) (node_id : String)
    (h : node_id ∉ g.nodeList) (maxDepth : Nat) :
    get_upstream_dependencies g node_id maxDepth = ∅ ∧
    get_downstream_dependencies g node_id maxDepth = ∅ ∧
    analyze_impact g node_id = Except.error "NetworkXError" ∧
    (∀ t, get_call_path g node_id t = Except.error "NodeNotFound") ∧
    (∀ s, get_call_path g s node_id = Except.error "NodeNotFound") := by
  refine ⟨upstream_not_mem g node_id maxDepth h,
    downstream_not_mem g node_id maxDepth h, ?_, ?_, ?_⟩
  · unfold analyze_impact
    rw [if_neg h]
  · intro t
    unfold get_call_path nx_shortest_path
    rw [if_neg (fun hc => h hc.1)]
    rfl
  · intro s
    unfold get_call_path nx_shortest_path
    rw [if_neg (fun hc => h hc.2)]
    rfl

/-- C3 amended, witness: the chain graph with absent id "X". -/
theorem claim_C3_amended_witness :
    ("X" ∉ chainGraph.nodeList) ∧
    get_upstream_dependencies chainGraph "X" 3 = ∅ ∧
    get_call_path chainGraph "A" "X" = Except.error "NodeNotFound" := by
  have h := claim_C3_amended chainGraph "X" (by decide) 3
  exact ⟨by decide, h.1, h.2.2.2.2 "A"⟩

/-- A concrete node carrying an embedding vector. -/
def nodeEmb : CodeNode :=
  { id := "E", file_path := "E.java", node_type := "method", name := "e",
    code := "int e() { return 1; }", start_line := 1, end_line := 1,
    embedding := some [1] }

/-- C1 (code bug): on a store holding one node that carries an embedding,
`export_embeddings` does not produce a snapshot at all — `json.dump`
raises `TypeError` because `asdict(node)` places the raw numpy array
inside `metadata` — so the export/import round-trip claimed by the spec
fails for every store with at least one embedded vector. -/
theorem claim_C1_export_raises :
    export_embeddings { code_nodes := [("E", nodeEmb)] } =
      Except.error "TypeError: Object of type ndarray is not JSON serializable" :=
  rfl

/-- The `code_nodes` dict has an entry under key `k`. -/
def hasKey (l : List (String × CodeNode)) (k : String) : Prop :=
  ∃ n, (k, n) ∈ l

theorem dictInsert_hasKey_self (l : List (String × CodeNode)) (k : String)
    (v : CodeNode) : hasKey (dictInsert l k v) k := by
  unfold dictInsert hasKey
  by_cases hany : l.any (fun p => p.1 = k)
  · rw [if_pos hany]
    obtain ⟨p, hp, hpk⟩ := List.any_eq_true.mp hany
    simp only [decide_eq_true_eq] at hpk
    exact ⟨v, List.mem_map.mpr ⟨p, hp, by rw [if_pos hpk]⟩⟩
  · rw [if_neg hany]
    exact ⟨v, List.mem_append_right _ (List.mem_cons_self _ _)⟩

theorem dictInsert_hasKey_mono (l : List (String × CodeNode)) (k k2 : String)
    (v : CodeNode) (h : hasKey l k) : hasKey (dictInsert l k2 v) k := by
  by_cases hkk : k = k2
  · subst hkk
    exact dictInsert_hasKey_self l k v
  · obtain ⟨n, hn⟩ := h
    unfold dictInsert
    by_cases hany : l.any (fun p => p.1 = k2)
    · rw [if_pos hany]
      exact ⟨n, List.mem_map.mpr ⟨(k, n), hn, if_neg (by simpa using hkk)⟩⟩
    · rw [if_neg hany]
      exact ⟨n, List.mem_append_left _ hn⟩

theorem load_nodes_loop_cons (node_id : String) (rec : SnapshotNodeRec)
    (rest : List (String × SnapshotNodeRec)) (st : EmbedderState) :
    load_nodes_loop ((node_id, rec) :: rest) st =
      match loadNodeRec rec with
      | Except.error e => (st, some e)
      | Except.ok node =>
        load_nodes_loop rest
          { st with code_nodes := dictInsert st.code_nodes node_id node,
                    call_graph := st.call_graph.add_node node_id } := rfl

/-- If every node record of the document is well-formed, the node loop
succeeds and the resulting store has an entry for every pre-existing key
and for every key of the document. -/
theorem load_nodes_loop_spec :
    ∀ (recs : List (String × SnapshotNodeRec)) (st : EmbedderState),
      (∀ p ∈ recs, p.2.metadata.isSome) →
      (load_nodes_loop recs st).2 = none ∧
      ∀ k : String,
        (hasKey st.code_nodes k ∨ ∃ p ∈ recs, p.1 = k) →
        hasKey (load_nodes_loop recs st).1.code_nodes k := by
  intro recs
  induction recs with
  | nil =>
    intro st _
    refine ⟨rfl, ?_⟩
    intro k hk
    rcases hk with hk | ⟨p, hp, _⟩
    · exact hk
    · exact absurd hp (List.not_mem_nil p)
  | cons hd rest ih =>
    intro st hwf
    obtain ⟨node_id, rec⟩ := hd
    obtain ⟨m, hm⟩ := Option.isSome_iff_exists.mp
      (hwf (node_id, rec) (List.mem_cons_self _ _))
    have hnode : ∃ node, loadNodeRec rec = Except.ok node := by
      unfold loadNodeRec
      rw [hm]
      exact ⟨_, rfl⟩
    obtain ⟨node, hnode⟩ := hnode
    rw [load_nodes_loop_cons, hnode]
    have ihr := ih
      { st with code_nodes := dictInsert st.code_nodes node_id node,
                call_graph := st.call_graph.add_node node_id }
      (fun p hp => hwf p (List.mem_cons_of_mem _ hp))
    refine ⟨ihr.1, ?_⟩
    intro k hk
    rcases hk with hk | ⟨p, hp, hpk⟩
    · exact ihr.2 k (Or.inl (dictInsert_hasKey_mono _ _ _ _ hk))
    · rcases List.mem_cons.mp hp with rfl | hp'
      · refine ihr.2 k (Or.inl ?_)
        rw [← hpk]
        exact dictInsert_hasKey_self _ _ _
      · exact ihr.2 k (Or.inr ⟨p, hp', hpk⟩)

/-- C8 (amended): a document whose node records are well-formed but whose
`relations` key is missing makes `load_embeddings` fail with `KeyError` —
yet every node of the document has already been inserted into the store:
the load is not atomic; mutations made before the failure persist. -/
theorem claim_C8_amended (st : EmbedderState) (doc : SnapshotDoc)
    (hnodes : ∀ p ∈ doc.nodes, p.2.metadata.isSome)
    (hrel : doc.relations = none) :
    (load_embeddings st doc).2 = some "KeyError: relations" ∧
    ∀ p ∈ doc.nodes, hasKey (load_embeddings st doc).1.code_nodes p.1 := by
  have hspec := load_nodes_loop_spec doc.nodes st hnodes
  unfold load_embeddings
  rcases hpair : load_nodes_loop doc.nodes st with ⟨st1, err⟩
  rw [hpair] at hspec
  have herr : err = none := hspec.1
  subst herr
  rw [hrel]
  exact ⟨rfl, fun p hp => hspec.2 p.1 (Or.inr ⟨p, hp, rfl⟩)⟩

/-- A concrete embedding-free node for the snapshot counterexamples. -/
def nodeA : CodeNode :=
  { id := "A", file_path := "A.java", node_type := "class", name := "A",
    code := "class A {}", start_line := 1, end_line := 2, embedding := none }

/-- A snapshot document with one well-formed node record and the
`relations` key missing. -/
def malformedDoc : SnapshotDoc :=
  { nodes := [("A", { metadata := some nodeA, embedding := none })],
    relations := none }

/-- C8 counterexample: loading `malformedDoc` into the empty store fails
(`KeyError` on the missing `relations` key) but leaves the store mutated:
node "A" has been added.  The claimed all-or-nothing behaviour fails. -/
theorem claim_C8_counterexample :
    (load_embeddings {} malformedDoc).2 = some "KeyError: relations" ∧
    (load_embeddings {} malformedDoc).1.code_nodes = [("A", nodeA)] :=
  ⟨rfl, rfl⟩

/-- C8 amended, witness: the concrete malformed document. -/
theorem claim_C8_amended_witness :
    (∀ p ∈ malformedDoc.nodes, p.2.metadata.isSome) ∧
    malformedDoc.relations = none ∧
    (load_embeddings {} malformedDoc).2 = some "KeyError: relations" ∧
    ∀ p ∈ malformedDoc.nodes,
      hasKey (load_embeddings {} malformedDoc).1.code_nodes p.1 := by
  have h := claim_C8_amended {} malformedDoc (by decide) rfl
  exact ⟨by decide, rfl, h.1, h.2⟩

theorem add_node_edgeList (g : NxDiGraph) (n : String) :
    (g.add_node n).edgeList = g.edgeList := by
  unfold NxDiGraph.add_node
  split <;> rfl

theorem addEdgeRaw_key_present (g : NxDiGraph) (s t ty : String) (c : Rat) :
    ∃ e ∈ (NxDiGraph.addEdgeRaw g s t ty c).edgeList, e.1 = s ∧ e.2.1 = t := by
  unfold NxDiGraph.addEdgeRaw
  by_cases hany : g.edgeList.any (fun e => e.1 = s ∧ e.2.1 = t)
  · rw [if_pos hany]
    obtain ⟨e, he, hek⟩ := List.any_eq_true.mp hany
    simp only [decide_eq_true_eq] at hek
    refine ⟨(s, t, ty, c), ?_, rfl, rfl⟩
    unfold NxDiGraph.replaceEdge
    exact List.mem_map.mpr ⟨e, he, by rw [if_pos hek]⟩
  · rw [if_neg hany]
    exact ⟨(s, t, ty, c),
      List.mem_append_right _ (List.mem_cons_self _ _), rfl, rfl⟩

theorem add_edge_key_present (g : NxDiGraph) (s t ty : String) (c : Rat) :
    ∃ e ∈ (g.add_edge s t ty c).edgeList, e.1 = s ∧ e.2.1 = t :=
  addEdgeRaw_key_present _ s t ty c

theorem addEdgeRaw_length_present (g : NxDiGraph) (s t ty : String) (c : Rat)
    (h : ∃ e ∈ g.edgeList, e.1 = s ∧ e.2.1 = t) :
    (NxDiGraph.addEdgeRaw g s t ty c).edgeList.length = g.edgeList.length := by
  obtain ⟨e, he, h1, h2⟩ := h
  have hany : g.edgeList.any (fun e => e.1 = s ∧ e.2.1 = t) :=
    List.any_eq_true.mpr ⟨e, he, by simp [h1, h2]⟩
  unfold NxDiGraph.addEdgeRaw
  rw [if_pos hany]
  unfold NxDiGraph.replaceEdge
  exact List.length_map _ _

theorem find_replaceEdge (l : List (String × String × String × Rat))
    (s t ty : String) (c : Rat) (h : ∃ e ∈ l, e.1 = s ∧ e.2.1 = t) :
    (NxDiGraph.replaceEdge l s t ty c).find?
        (fun e => decide (e.1 = s ∧ e.2.1 = t)) = some (s, t, ty, c) := by
  induction l with
  | nil =>
    obtain ⟨e, he, _⟩ := h
    exact absurd he (List.not_mem_nil e)
  | cons a l ih =>
    unfold NxDiGraph.replaceEdge at ih ⊢
    by_cases ha : a.1 = s ∧ a.2.1 = t
    · rw [List.map_cons, if_pos ha, List.find?_cons_of_pos _ (by simp)]
    · rw [List.map_cons, if_neg ha, List.find?_cons_of_neg _ (by simpa using ha)]
      apply ih
      obtain ⟨e, he, h1, h2⟩ := h
      rcases List.mem_cons.mp he with rfl | he'
      · exact absurd ⟨h1, h2⟩ ha
      · exact ⟨e, he', h1, h2⟩

theorem edgeAttr_addEdgeRaw (g : NxDiGraph) (s t ty : String) (c : Rat)
    (h : ∃ e ∈ g.edgeList, e.1 = s ∧ e.2.1 = t) :
    (NxDiGraph.addEdgeRaw g s t ty c).edgeAttr s t = some (ty, c) := by
  obtain ⟨e, he, h1, h2⟩ := h
  have hany : g.edgeList.any (fun e => e.1 = s ∧ e.2.1 = t) :=
    List.any_eq_true.mpr ⟨e, he, by simp [h1, h2]⟩
  unfold NxDiGraph.addEdgeRaw
  rw [if_pos hany]
  unfold NxDiGraph.edgeAttr
  rw [show ({ g with edgeList := NxDiGraph.replaceEdge g.edgeList s t ty c } :
      NxDiGraph).edgeList = NxDiGraph.replaceEdge g.edgeList s t ty c from rfl]
  rw [find_replaceEdge g.edgeList s t ty c ⟨e, he, h1, h2⟩]
  rfl

/-- Concrete relations with the same endpoints but distinct kinds. -/
def relCall : CodeRelation :=
  { source_id := "A", target_id := "B", relation_type := "call",
    confidence := 1 }

def relInherit : CodeRelation :=
  { source_id := "A", target_id := "B", relation_type := "inherit",
    confidence := 1 }

/-- C7 counterexample: after adding two relations with the same
`(source, target)` but different `relation_type` to an empty store, the
relations list keeps both (`total_relations = 2`) but the networkx
`DiGraph` collapses them and `get_statistics` reports `total_edges = 1` —
the graph does not keep both as distinct edges, and the second write
overwrote the first relation's attributes. -/
theorem claim_C7_counterexample :
    (get_statistics
        (add_code_relation (add_code_relation {} relCall) relInherit)).total_edges
      = 1 ∧
    (get_statistics
        (add_code_relation (add_code_relation {} relCall)
          relInherit)).total_relations = 2 ∧
    (add_code_relation (add_code_relation {} relCall)
        relInherit).call_graph.edgeAttr "A" "B" = some ("inherit", 1) :=
  ⟨rfl, rfl, rfl⟩

/-- C7 (amended): adding two relations with equal `(source, target)` and
different kinds keeps both in `code_relations` (both retrievable, and
`total_relations` counts both), but the call graph stores a single edge
for the pair: `total_edges` does not grow on the second add, and the
stored edge attributes are the second relation's (last write wins). -/
theorem claim_C7_amended (st : EmbedderState) (r1 r2 : CodeRelation)
    (hsrc : r2.source_id = r1.source_id)
    (htgt : r2.target_id = r1.target_id) :
    r1 ∈ (add_code_relation (add_code_relation st r1) r2).code_relations ∧
    r2 ∈ (add_code_relation (add_code_relation st r1) r2).code_relations ∧
    (get_statistics
        (add_code_relation (add_code_relation st r1) r2)).total_relations
      = (get_statistics st).total_relations + 2 ∧
    (get_statistics
        (add_code_relation (add_code_relation st r1) r2)).total_edges
      = (get_statistics (add_code_relation st r1)).total_edges ∧
    (add_code_relation (add_code_relation st r1) r2).call_graph.edgeAttr
        r1.source_id r1.target_id
      = some (r2.relation_type, r2.confidence) := by
  have hkey := add_edge_key_present st.call_graph r1.source_id r1.target_id
    r1.relation_type r1.confidence
  have hkey2 : ∃ e ∈ (((add_code_relation st r1).call_graph.add_node
        r2.source_id).add_node r2.target_id).edgeList,
      e.1 = r2.source_id ∧ e.2.1 = r2.target_id := by
    rw [add_node_edgeList, add_node_edgeList, hsrc, htgt]
    exact hkey
  have hcg : (add_code_relation (add_code_relation st r1) r2).call_graph
      = NxDiGraph.addEdgeRaw
          (((add_code_relation st r1).call_graph.add_node
            r2.source_id).add_node r2.target_id)
          r2.source_id r2.target_id r2.relation_type r2.confidence := rfl
  refine ⟨?_, ?_, ?_, ?_, ?_⟩
  · simp [add_code_relation]
  · simp [add_code_relation]
  · simp [add_code_relation, get_statistics]
  · show (add_code_relation (add_code_relation st r1)
        r2).call_graph.edgeList.length
      = (add_code_relation st r1).call_graph.edgeList.length
    rw [hcg, addEdgeRaw_length_present _ _ _ _ _ hkey2, add_node_edgeList,
      add_node_edgeList]
  · show (add_code_relation (add_code_relation st r1) r2).call_graph.edgeAttr
        r1.source_id r1.target_id = some (r2.relation_type, r2.confidence)
    rw [hcg, ← hsrc, ← htgt]
    exact edgeAttr_addEdgeRaw _ _ _ _ _ hkey2

/-- C7 amended, witness: the two concrete parallel relations. -/
theorem claim_C7_amended_witness :
    relInherit.source_id = relCall.source_id ∧
    relInherit.target_id = relCall.target_id ∧
    (get_statistics
        (add_code_relation (add_code_relation {} relCall)
          relInherit)).total_edges
      = (get_statistics (add_code_relation {} relCall)).total_edges ∧
    (add_code_relation (add_code_relation {} relCall)
        relInherit).call_graph.edgeAttr relCall.source_id relCall.target_id
      = some (relInherit.relation_type, relInherit.confidence) := by
  have h := claim_C7_amended {} relCall relInherit rfl rfl
  exact ⟨rfl, rfl, h.2.2.2.1, h.2.2.2.2⟩

/-! ## Hybrid search (`main.py` `search_similar_code`, lines 92-124) -/

/-- `np.dot` on two vectors. -/
def dotList (v1 v2 : List Rat) : Rat :=
  ((v1.zip v2).map (fun p => p.1 * p.2)).sum

/-- Sum of squares (the square of `np.linalg.norm`). -/
def sumSq (v : List Rat) : Rat := (v.map (fun x => x * x)).sum

/-- `_cosine_similarity` (`graphcodebert_embedder.py` lines 378-397).
`np.linalg.norm` is numpy's square root of the sum of squares; the square
root is an external numeric routine, passed as the opaque `sqrtFn`. -/
def cosine_similarity (sqrtFn : Rat → Rat) (v1 v2 : List Rat) : Rat :=
  let dot := dotList v1 v2
  let norm1 := sqrtFn (sumSq v1)
  let norm2 := sqrtFn (sumSq v2)
  if norm1 = 0 ∨ norm2 = 0 then 0 else dot / (norm1 * norm2)

/-- Stable insertion step for a descending sort by `key`: the new element
goes after all earlier elements with an equal or larger key. -/
def insertByDesc {α : Type} (key : α → Rat) (a : α) : List α → List α
  | [] => [a]
  | b :: l => if key b < key a then a :: b :: l else b :: insertByDesc key a l

/-- Python's `list.sort(key=..., reverse=True)` is a stable descending
sort; a stable sort's output is unique, so the stable insertion sort
below produces exactly the same list. -/
def sortByDesc {α : Type} (key : α → Rat) (l : List α) : List α :=
  l.foldl (fun acc a => insertByDesc key a acc) []

/-- `get_similar_nodes` (`graphcodebert_embedder.py` lines 191-213): rank
every stored node carrying an embedding by cosine similarity against the
encoded query, descending, and keep the top `top_k`.  The external
GraphCodeBERT `encode_code` is the opaque `encode`. -/
def get_similar_nodes (encode : String → List Rat) (sqrtFn : Rat → Rat)
    (st : EmbedderState) (query_code : String) (top_k : Nat) :
    List (String × Rat) :=
  let query_embedding := encode query_code
  let similarities := st.code_nodes.filterMap (fun p =>
    p.2.embedding.map
      (fun e => (p.1, cosine_similarity sqrtFn query_embedding e)))
  (sortByDesc (fun p => p.2) similarities).take top_k

/-- One entry of the result list of `search_similar_code`. -/
structure SearchResult where
  node_id : String
  similarity : Rat
  node_type : String
  name : String
  file_path : String
  code : String
  deriving Repr, DecidableEq

/-- `JavaCodeEmbeddingSystem.search_similar_code` (`main.py` lines
92-124).  The active vector-database backend's `search` method is the
opaque `dbSearch`, which may raise (`Except.error`).  The Python body has
no try/except: a backend failure propagates out of the whole call; and on
success `db_results` is computed but never used — the returned list is
built from the embedder-local ranking only. -/
def search_similar_code (encode : String → List Rat) (sqrtFn : Rat → Rat)
    (dbSearch : List Rat → Nat → Except String (List (String × Rat)))
    (st : EmbedderState) (query_code : String) (top_k : Nat) :
    Except String (List SearchResult) :=
  let embedder_results := get_similar_nodes encode sqrtFn st query_code top_k
  let query_embedding := encode query_code
  match dbSearch query_embedding top_k with
  | Except.error e => Except.error e
  | Except.ok _db_results =>
    Except.ok (embedder_results.filterMap (fun p =>
      (dictGet st.code_nodes p.1).map (fun node =>
        { node_id := p.1, similarity := p.2, node_type := node.node_type,
          name := node.name, file_path := node.file_path,
          code := node.code })))

/-- Concrete single-node store, encoder, square root and backends for the
hybrid-search evaluations. -/
def stOne : EmbedderState := { code_nodes := [("E", nodeEmb)] }

def encodeOne : String → List Rat := fun _ => [1]

/-- An opaque-square-root instantiation for concrete runs; it makes both
norms zero so `_cosine_similarity` takes its zero-guard branch (similarity
0.0) and no rational division occurs. -/
def sqrtZero : Rat → Rat := fun _ => 0

def dbFail : List Rat → Nat → Except String (List (String × Rat)) :=
  fun _ _ => Except.error "backend down"

def dbEmpty : List Rat → Nat → Except String (List (String × Rat)) :=
  fun _ _ => Except.ok []

/-- C2 counterexample: on a populated system whose backend fails,
`search_similar_code` does not return the locally-ranked top-K — it
propagates the backend error, whereas with a healthy backend it returns
the local ranking.  The failure is a user-visible error of the search
operation, not a warning-level degrade. -/
def resultE : SearchResult :=
  { node_id := "E", similarity := 0, node_type := "method",
    name := "e", file_path := "E.java", code := "int e() { return 1; }" }

theorem claim_C2_counterexample :
    search_similar_code encodeOne sqrtZero dbFail stOne "query" 10
      = Except.error "backend down" ∧
    search_similar_code encodeOne sqrtZero dbEmpty stOne "query" 10
      = Except.ok [resultE] := by
  constructor
  · rfl
  · rfl

/-- C2 (amended): the backend's answer never contributes to the returned
content — whenever the backend call succeeds, the result is exactly the
hydrated locally-ranked top-K, for any successful backend output; but if
the backend raises, `search_similar_code` propagates the failure instead
of degrading to the local results. -/
theorem claim_C2_amended (encode : String → List Rat) (sqrtFn : Rat → Rat)
    (dbSearch : List Rat → Nat → Except String (List (String × Rat)))
    (st : EmbedderState) (query_code : String) (top_k : Nat) :
    (∀ e, dbSearch (encode query_code) top_k = Except.error e →
      search_similar_code encode sqrtFn dbSearch st query_code top_k
        = Except.error e) ∧
    (∀ rs, dbSearch (encode query_code) top_k = Except.ok rs →
      search_similar_code encode sqrtFn dbSearch st query_code top_k
        = Except.ok
          ((get_similar_nodes encode sqrtFn st query_code top_k).filterMap
            (fun p => (dictGet st.code_nodes p.1).map (fun node =>
              { node_id := p.1, similarity := p.2,
                node_type := node.node_type, name := node.name,
                file_path := node.file_path, code := node.code })))) := by
  constructor
  · intro e he
    simp only [search_similar_code]
    rw [he]
  · intro rs hrs
    simp only [search_similar_code]
    rw [hrs]

/-- C2 amended, witness: the single-node store with the failing backend. -/
theorem claim_C2_amended_witness :
    dbFail (encodeOne "query") 10 = Except.error "backend down" ∧
    search_similar_code encodeOne sqrtZero dbFail stOne "query" 10
      = Except.error "backend down" :=
  ⟨rfl, (claim_C2_amended encodeOne sqrtZero dbFail stOne "query" 10).1
    "backend down" rfl⟩

/-! ## FAISS exact backend (`vector_database.py` lines 223-363) -/

/-- Python dict insert-or-replace for an arbitrary key type. -/
def assocInsert {α β : Type} [DecidableEq α] (l : List (α × β)) (k : α)
    (v : β) : List (α × β) :=
  if l.any (fun p => p.1 = k) then
    l.map (fun p => if p.1 = k then (k, v) else p)
  else l ++ [(k, v)]

/-- Python dict lookup (`d.get(k)` / `d[k]` after a membership check). -/
def assocGet {α β : Type} [DecidableEq α] (l : List (α × β)) (k : α) :
    Option β :=
  (l.find? (fun p => p.1 = k)).map (fun p => p.2)

/-- Python `del d[k]`. -/
def assocDelete {α β : Type} [DecidableEq α] (l : List (α × β)) (k : α) :
    List (α × β) :=
  l.filter (fun p => decide (p.1 ≠ k))

/-- The in-memory state of `FAISSInterface` (lines 226-252): the
`IndexFlatIP` is the append-only `vectors` list (faiss assigns each added
vector the next sequential internal index = its list position);
`node_metadata`, `id_to_index` and `index_to_id` mirror the Python dicts;
`next_index` is the slot counter.  The `_save_index`/`_load_index` file
persistence is I/O outside the model. -/
structure FAISSState where
  dimension : Nat := 768
  vectors : List (List Rat) := []
  node_metadata : List (Nat × CodeNode) := []
  id_to_index : List (String × Nat) := []
  index_to_id : List (Nat × String) := []
  next_index : Nat := 0
  deriving Repr, DecidableEq

/-- The metadata-registration loop of `add_embeddings` (lines 274-280):
one iteration per valid node, consuming one slot counter each. -/
def faissRegister : List (CodeNode × List Rat) → FAISSState → FAISSState
  | [], st => st
  | p :: rest, st =>
    faissRegister rest
      { st with
        node_metadata := assocInsert st.node_metadata st.next_index p.1,
        id_to_index := assocInsert st.id_to_index p.1.id st.next_index,
        index_to_id := assocInsert st.index_to_id st.next_index p.1.id,
        next_index := st.next_index + 1 }

/-- `FAISSInterface.add_embeddings` (lines 254-285): nodes without an
embedding are skipped; the remaining vectors are appended to the index in
one batch, then the id/index maps are registered node by node. -/
def FAISSState.add_embeddings (st : FAISSState) (nodes : List CodeNode) :
    FAISSState :=
  let valid := nodes.filterMap (fun n => n.embedding.map (fun e => (n, e)))
  if valid.isEmpty then st
  else
    faissRegister valid
      { st with vectors := st.vectors ++ valid.map (fun p => p.2) }

/-- `FAISSInterface.search` (lines 287-307): rank every stored vector by
inner product with the query (descending; faiss breaks score ties by the
lower internal index), take `top_k`, and keep only the slots that still
have an `index_to_id` entry. -/
def FAISSState.search (st : FAISSState) (query_embedding : List Rat)
    (top_k : Nat) : List (String × Rat) :=
  let scored := st.vectors.enum.map
    (fun p => (dotList query_embedding p.2, p.1))
  let ranked := (sortByDesc (fun p => p.1) scored).take top_k
  ranked.filterMap
    (fun p => (assocGet st.index_to_id p.2).map (fun id => (id, p.1)))

/-- `FAISSInterface.get_node` (lines 309-322). -/
def FAISSState.get_node (st : FAISSState) (node_id : String) :
    Option CodeNode :=
  match assocGet st.id_to_index node_id with
  | some index => assocGet st.node_metadata index
  | none => none

/-- `FAISSInterface.update_node` (lines 324-337): replaces only the
`node_metadata` record of the id's slot; the index's vectors are not
touched. -/
def FAISSState.update_node (st : FAISSState) (node : CodeNode) : FAISSState :=
  match assocGet st.id_to_index node.id with
  | some index =>
    { st with node_metadata := assocInsert st.node_metadata index node }
  | none => st

/-- `FAISSInterface.delete_node` (lines 339-354): removes the three
metadata mappings only; the vector matrix and `next_index` stay (faiss
does not support deleting vectors — the comment in the source). -/
def FAISSState.delete_node (st : FAISSState) (node_id : String) : FAISSState :=
  match assocGet st.id_to_index node_id with
  | some index =>
    { st with node_metadata := assocDelete st.node_metadata index,
              id_to_index := assocDelete st.id_to_index node_id,
              index_to_id := assocDelete st.index_to_id index }
  | none => st

theorem faissRegister_frame :
    ∀ (valid : List (CodeNode × List Rat)) (st : FAISSState),
      (faissRegister valid st).next_index = st.next_index + valid.length ∧
      (faissRegister valid st).vectors = st.vectors := by
  intro valid
  induction valid with
  | nil => intro st; exact ⟨rfl, rfl⟩
  | cons p rest ih =>
    intro st
    set st2 : FAISSState :=
      { st with
        node_metadata := assocInsert st.node_metadata st.next_index p.1,
        id_to_index := assocInsert st.id_to_index p.1.id st.next_index,
        index_to_id := assocInsert st.index_to_id st.next_index p.1.id,
        next_index := st.next_index + 1 }
    rcases ih st2 with ⟨h1, h2⟩
    have hn : st2.next_index = st.next_index + 1 := rfl
    have hv : st2.vectors = st.vectors := rfl
    refine ⟨?_, ?_⟩
    · show (faissRegister rest st2).next_index = st.next_index + (p :: rest).length
      rw [h1, hn, List.length_cons]
      omega
    · show (faissRegister rest st2).vectors = st.vectors
      rw [h2, hv]

theorem delete_node_frame (st : FAISSState) (i : String) :
    (st.delete_node i).next_index = st.next_index ∧
    (st.delete_node i).vectors = st.vectors := by
  unfold FAISSState.delete_node
  cases assocGet st.id_to_index i <;> exact ⟨rfl, rfl⟩

theorem update_node_frame (st : FAISSState) (n : CodeNode) :
    (st.update_node n).next_index = st.next_index ∧
    (st.update_node n).vectors = st.vectors ∧
    (st.update_node n).index_to_id = st.index_to_id := by
  unfold FAISSState.update_node
  cases assocGet st.id_to_index n.id <;> exact ⟨rfl, rfl, rfl⟩

/-- `add_embeddings` of a single vector-bearing node, explicitly. -/
theorem add_embeddings_single (st : FAISSState) (node : CodeNode)
    (v : List Rat) (hemb : node.embedding = some v) :
    st.add_embeddings [node] =
      { st with
        vectors := st.vectors ++ [v],
        node_metadata := assocInsert st.node_metadata st.next_index node,
        id_to_index := assocInsert st.id_to_index node.id st.next_index,
        index_to_id := assocInsert st.index_to_id st.next_index node.id,
        next_index := st.next_index + 1 } := by
  unfold FAISSState.add_embeddings
  rw [show [node].filterMap (fun n => n.embedding.map (fun e => (n, e)))
      = [(node, v)] by simp [hemb]]
  rfl

theorem find_map_replace {α β : Type} [DecidableEq α]
    (l : List (α × β)) (k : α) (v : β) (h : ∃ p ∈ l, p.1 = k) :
    (l.map (fun p => if p.1 = k then (k, v) else p)).find?
      (fun p => p.1 = k) = some (k, v) := by
  induction l with
  | nil =>
    obtain ⟨p, hp, _⟩ := h
    exact absurd hp (List.not_mem_nil p)
  | cons a l ih =>
    by_cases ha : a.1 = k
    · rw [List.map_cons, if_pos ha, List.find?_cons_of_pos _ (by simp)]
    · rw [List.map_cons, if_neg ha,
        List.find?_cons_of_neg _ (by simpa using ha)]
      apply ih
      obtain ⟨p, hp, hpk⟩ := h
      rcases List.mem_cons.mp hp with rfl | hp'
      · exact absurd hpk ha
      · exact ⟨p, hp', hpk⟩

theorem find?_append_none {α : Type} (l1 l2 : List α) (p : α → Bool)
    (h : ∀ x ∈ l1, ¬(p x = true)) : (l1 ++ l2).find? p = l2.find? p := by
  induction l1 with
  | nil => rfl
  | cons a l ih =>
    rw [List.cons_append,
      List.find?_cons_of_neg _ (h a (List.mem_cons_self _ _))]
    exact ih (fun x hx => h x (List.mem_cons_of_mem _ hx))

theorem assocGet_insert_self {α β : Type} [DecidableEq α]
    (l : List (α × β)) (k : α) (v : β) :
    assocGet (assocInsert l k v) k = some v := by
  unfold assocInsert assocGet
  by_cases hany : l.any (fun p => p.1 = k)
  · rw [if_pos hany]
    obtain ⟨p, hp, hpk⟩ := List.any_eq_true.mp hany
    simp only [decide_eq_true_eq] at hpk
    rw [find_map_replace l k v ⟨p, hp, hpk⟩]
    rfl
  · rw [if_neg hany]
    have hall : ∀ p ∈ l, ¬((fun p => decide (p.1 = k)) p = true) := by
      intro p hp hpk
      simp only [decide_eq_true_eq] at hpk
      exact hany (List.any_eq_true.mpr ⟨p, hp, by simp [hpk]⟩)
    rw [find?_append_none l [(k, v)] _ hall,
      List.find?_cons_of_pos _ (by simp)]
    rfl

/-- C10: `update_node` on an id present in the FAISS backend replaces only
the metadata record: `get_node` afterwards returns the new node including
its new embedding, but the index's vectors and the slot-to-id map are
untouched, so `search` output is identical before and after the update —
the id keeps ranking by the vector supplied at the original
`add_embeddings` call. -/
theorem claim_C10 (st : FAISSState) (node : CodeNode)
    (h : ∃ idx, assocGet st.id_to_index node.id = some idx) :
    (st.update_node node).vectors = st.vectors ∧
    (st.update_node node).index_to_id = st.index_to_id ∧
    FAISSState.get_node (st.update_node node) node.id = some node ∧
    ∀ (q : List Rat) (k : Nat),
      FAISSState.search (st.update_node node) q k = st.search q k := by
  obtain ⟨idx, hidx⟩ := h
  have hupd : st.update_node node
      = { st with node_metadata := assocInsert st.node_metadata idx node } := by
    unfold FAISSState.update_node
    rw [hidx]
  refine ⟨by rw [hupd], by rw [hupd], ?_, ?_⟩
  · simp only [FAISSState.get_node, hupd]
    rw [hidx]
    exact assocGet_insert_self _ _ _
  · intro q k
    rw [hupd]
    rfl

/-- A node with the same id as `nodeEmb` but a different embedding. -/
def nodeEmb2 : CodeNode := { nodeEmb with embedding := some [2] }

/-- C10 witness: the one-slot backend built by adding `nodeEmb`. -/
theorem claim_C10_witness :
    assocGet (FAISSState.add_embeddings {} [nodeEmb]).id_to_index nodeEmb2.id
      = some 0 ∧
    FAISSState.get_node
        ((FAISSState.add_embeddings {} [nodeEmb]).update_node nodeEmb2)
        nodeEmb2.id = some nodeEmb2 ∧
    ((FAISSState.add_embeddings {} [nodeEmb]).update_node nodeEmb2).vectors
      = (FAISSState.add_embeddings {} [nodeEmb]).vectors := by
  have h := claim_C10 (FAISSState.add_embeddings {} [nodeEmb]) nodeEmb2
    ⟨0, rfl⟩
  exact ⟨rfl, h.2.2.1, h.1⟩

/-- C9: on the FAISS backend, one `add_embeddings([node])` followed by
`delete_node(node.id)` (for a vector-bearing node) increases `next_index`
by one and appends the vector permanently — deletion removes only the
metadata mappings — and no operation (`add_embeddings`, `delete_node`,
`update_node`) ever decreases `next_index` or the stored vector count. -/
theorem claim_C9 (st : FAISSState) (node : CodeNode) (v : List Rat)
    (hemb : node.embedding = some v) :
    ((st.add_embeddings [node]).delete_node node.id).next_index
        = st.next_index + 1 ∧
    ((st.add_embeddings [node]).delete_node node.id).vectors
        = st.vectors ++ [v] ∧
    (∀ (st2 : FAISSState) (ns : List CodeNode),
      st2.next_index ≤ (st2.add_embeddings ns).next_index ∧
      st2.vectors.length ≤ (st2.add_embeddings ns).vectors.length) ∧
    (∀ (st2 : FAISSState) (i : String),
      (st2.delete_node i).next_index = st2.next_index ∧
      (st2.delete_node i).vectors = st2.vectors) ∧
    (∀ (st2 : FAISSState) (n : CodeNode),
      (st2.update_node n).next_index = st2.next_index ∧
      (st2.update_node n).vectors = st2.vectors) := by
  have hadd := add_embeddings_single st node v hemb
  have hdel := delete_node_frame (st.add_embeddings [node]) node.id
  refine ⟨?_, ?_, ?_, ?_, ?_⟩
  · rw [hdel.1, hadd]
  · rw [hdel.2, hadd]
  · intro st2 ns
    simp only [FAISSState.add_embeddings]
    set valid := ns.filterMap (fun n => n.embedding.map (fun e => (n, e)))
    by_cases hv : valid.isEmpty
    · rw [if_pos hv]
      exact ⟨le_refl _, le_refl _⟩
    · rw [if_neg hv]
      set stv : FAISSState :=
        { st2 with vectors := st2.vectors ++ valid.map (fun p => p.2) }
      rcases faissRegister_frame valid stv with ⟨h1, h2⟩
      constructor
      · rw [h1]
        have hx : stv.next_index = st2.next_index := rfl
        rw [hx]
        omega
      · rw [h2]
        have hx : stv.vectors = st2.vectors ++ valid.map (fun p => p.2) := rfl
        rw [hx, List.length_append]
        omega
  · intro st2 i
    exact delete_node_frame st2 i
  · intro st2 n
    exact ⟨(update_node_frame st2 n).1, (update_node_frame st2 n).2.1⟩

/-- C9 witness: the empty backend plus the concrete embedded node. -/
theorem claim_C9_witness :
    nodeEmb.embedding = some [1] ∧
    ((FAISSState.add_embeddings {} [nodeEmb]).delete_node
        nodeEmb.id).next_index = 1 ∧
    ((FAISSState.add_embeddings {} [nodeEmb]).delete_node
        nodeEmb.id).vectors = [[1]] := by
  have h := claim_C9 {} nodeEmb [1] rfl
  exact ⟨rfl, h.1, h.2.1⟩

/-! ## Well-formedness is an invariant of the graph API

Every call graph the program can hold is built from the empty graph by
`add_node`/`add_edge`, so the `Wf` hypothesis of the traversal theorems
holds for every reachable store. -/

theorem wf_empty : NxDiGraph.Wf {} := by decide

theorem add_node_mem_self (g : NxDiGraph) (n : String) :
    n ∈ (g.add_node n).nodeList := by
  unfold NxDiGraph.add_node
  by_cases h : n ∈ g.nodeList
  · rw [if_pos h]
    exact h
  · rw [if_neg h]
    exact List.mem_append_right _ (List.mem_cons_self _ _)

theorem add_node_mem_mono (g : NxDiGraph) (n m : String)
    (h : m ∈ g.nodeList) : m ∈ (g.add_node n).nodeList := by
  unfold NxDiGraph.add_node
  by_cases hn : n ∈ g.nodeList
  · rw [if_pos hn]
    exact h
  · rw [if_neg hn]
    exact List.mem_append_left _ h

theorem wf_add_node (g : NxDiGraph) (hg : g.Wf) (n : String) :
    (g.add_node n).Wf := by
  unfold NxDiGraph.add_node
  by_cases h : n ∈ g.nodeList
  · rw [if_pos h]
    exact hg
  · rw [if_neg h]
    refine ⟨?_, hg.edges_keys_nodup, ?_, ?_⟩
    · rw [List.nodup_append]
      exact ⟨hg.nodes_nodup, List.nodup_singleton n,
        fun a ha hb => h (by rwa [List.mem_singleton.mp hb] at ha)⟩
    · intro e he
      exact List.mem_append_left _ (hg.src_mem e he)
    · intro e he
      exact List.mem_append_left _ (hg.tgt_mem e he)

theorem replaceEdge_keys (l : List (String × String × String × Rat))
    (s t ty : String) (c : Rat) :
    (NxDiGraph.replaceEdge l s t ty c).map (fun e => (e.1, e.2.1))
      = l.map (fun e => (e.1, e.2.1)) := by
  unfold NxDiGraph.replaceEdge
  rw [List.map_map]
  apply List.map_congr_left
  intro e _
  by_cases hek : e.1 = s ∧ e.2.1 = t
  · simp only [Function.comp_apply, if_pos hek]
    rw [hek.1, hek.2]
  · simp only [Function.comp_apply, if_neg hek]

theorem wf_addEdgeRaw (g : NxDiGraph) (hg : g.Wf) (s t ty : String) (c : Rat)
    (hs : s ∈ g.nodeList) (ht : t ∈ g.nodeList) :
    (NxDiGraph.addEdgeRaw g s t ty c).Wf := by
  unfold NxDiGraph.addEdgeRaw
  by_cases hany : g.edgeList.any (fun e => e.1 = s ∧ e.2.1 = t)
  · rw [if_pos hany]
    refine ⟨hg.nodes_nodup, ?_, ?_, ?_⟩
    · rw [show ({ g with edgeList := NxDiGraph.replaceEdge g.edgeList s t ty c}
          : NxDiGraph).edgeList = NxDiGraph.replaceEdge g.edgeList s t ty c
          from rfl]
      rw [replaceEdge_keys]
      exact hg.edges_keys_nodup
    · intro e he
      rcases List.mem_map.mp he with ⟨e0, he0, heq⟩
      by_cases hek : e0.1 = s ∧ e0.2.1 = t
      · rw [if_pos hek] at heq
        rw [← heq]
        exact hs
      · rw [if_neg hek] at heq
        rw [← heq]
        exact hg.src_mem e0 he0
    · intro e he
      rcases List.mem_map.mp he with ⟨e0, he0, heq⟩
      by_cases hek : e0.1 = s ∧ e0.2.1 = t
      · rw [if_pos hek] at heq
        rw [← heq]
        exact ht
      · rw [if_neg hek] at heq
        rw [← heq]
        exact hg.tgt_mem e0 he0
  · rw [if_neg hany]
    refine ⟨hg.nodes_nodup, ?_, ?_, ?_⟩
    · rw [show ({ g with edgeList := g.edgeList ++ [(s, t, ty, c)] }
          : NxDiGraph).edgeList = g.edgeList ++ [(s, t, ty, c)] from rfl]
      rw [List.map_append, List.nodup_append]
      refine ⟨hg.edges_keys_nodup, List.nodup_singleton _, ?_⟩
      intro a ha hb
      rcases List.mem_map.mp ha with ⟨e0, he0, heq⟩
      rw [List.mem_singleton.mp hb] at heq
      exact hany (List.any_eq_true.mpr ⟨e0, he0, by
        simp only [decide_eq_true_eq]
        exact ⟨congrArg Prod.fst heq, congrArg (fun p => p.2) heq⟩⟩)
    · intro e he
      rcases List.mem_append.mp he with h | h
      · exact hg.src_mem e h
      · rw [List.mem_singleton.mp h]
        exact hs
    · intro e he
      rcases List.mem_append.mp he with h | h
      · exact hg.tgt_mem e h
      · rw [List.mem_singleton.mp h]
        exact ht

theorem wf_add_edge (g : NxDiGraph) (hg : g.Wf) (s t ty : String) (c : Rat) :
    (g.add_edge s t ty c).Wf := by
  unfold NxDiGraph.add_edge
  exact wf_addEdgeRaw _ (wf_add_node _ (wf_add_node g hg s) t) s t ty c
    (add_node_mem_mono _ t s (add_node_mem_self g s))
    (add_node_mem_self _ t)

/-- `add_code_relation` keeps the call graph well-formed. -/
theorem wf_add_code_relation (st : EmbedderState) (hg : st.call_graph.Wf)
    (r : CodeRelation) : (add_code_relation st r).call_graph.Wf :=
  wf_add_edge st.call_graph hg r.source_id r.target_id r.relation_type
    r.confidence
